import Mathlib

/-!
Verification of the IPTpy anthropogenic-emission pipeline (FV dycore):
shallow embedding of the aggregation stage (`sum.py` / `FV.sum_up`), the
regridding longitude handling (`regrid.py` / `FV.apply_regridder`) and the
rename/transform stage (`rename.py` / `FV.rename`), over exact rational
arithmetic.  A gridded field is modelled as a function from a flattened
(time, lat, lon) cell index to a rational value; files on disk are
modelled as stores mapping a species/sector name to its field.
-/

/-- A gridded field: flattened (time, lat, lon) cell index to value. -/
def EmisField : Type := Nat → ℚ

/-- Avogadro's number as set in `rename` (`avogadro_number = 6.022e23`). -/
def avogadroNumber : ℚ := 6.022e23

/-- `kg_to_g = 1e3` from `rename`. -/
def kgToG : ℚ := 1e3

/-- `m2_to_cm2 = 1e4` from `rename`. -/
def m2ToCm2 : ℚ := 1e4

/-- `unit_factor = avogadro_number * kg_to_g / m2_to_cm2` from `rename`. -/
def unitFactor : ℚ := avogadroNumber * kgToG / m2ToCm2

/-- Non-composite transform of `FV.rename` / `Rename.rename`:
`output.variables[var_name][:, :, :] = input_ds[var_name][:, :, :].values * (unit_factor / mw) * sf`. -/
def renameNonComposite (mw sf : ℚ) (input : EmisField) : EmisField :=
  fun i => input i * (unitFactor / mw) * sf

/-- Composite (BIGALK, XYLENES) transform of `FV.rename` / `Rename.rename`: the
output variable is first written as all zeros (`output.variables[var_name][:, :, :] = 0`,
the `isinstance(species, list)` branch), then for each child
`output[var_name][:, :, :] += input_ds[var_name][:, :, :].values * (sub_mw / mw) * (unit_factor / sub_mw) * sf`
where `input_ds` is the child's regridded file and `sub_mw` its molecular-weight
table entry. -/
def compositeField (store : String → EmisField) (subMwTable : String → ℚ)
    (children : List String) (mw sf : ℚ) : EmisField :=
  children.foldl
    (fun out subVar => fun i =>
      out i + store subVar i * (subMwTable subVar / mw) * (unitFactor / subMwTable subVar) * sf)
    (fun _ => 0)

/-- Second-tier composite (IVOC) transform of `FV.rename` / `Rename.rename`: the
output variable starts all zero, then for each child
`output[var_name][:, :, :] += input_ds[var_name][:, :, :].values * (sub_mw / mw) * sf`,
where `input_ds` is opened from the RENAMED output path
(`f'{renamed_path}{source}{version}_{sub_var}_anthro_...'`), not from the
regridded path.  Both stores are passed so that (non-)dependence on the
regridded files is expressible. -/
def ivocField (regriddedStore renamedStore : String → EmisField) (subMwTable : String → ℚ)
    (children : List String) (mw sf : ℚ) : EmisField :=
  children.foldl
    (fun out subVar => fun i =>
      out i + renamedStore subVar i * (subMwTable subVar / mw) * sf)
    (fun _ => 0)

/-- The BIGALK children (`species_mapping['BIGALK']` / `model_var_mapping['BIGALK']`). -/
def bigalkChildren : List String := ["butanes", "pentanes", "hexanes", "esters", "ethers"]

/-- BIGALK child molecular weights from the `_mw_mapping` table of `fv.py`. -/
def bigalkSubMwFV (s : String) : ℚ :=
  if s = "butanes" then 58 else if s = "pentanes" then 72 else if s = "hexanes" then 86
  else if s = "esters" then 184 else if s = "ethers" then 81 else 0

/-- BIGALK child molecular weights from the `sub_mw_mapping` table of `rename.py`. -/
def bigalkSubMwRename (s : String) : ℚ :=
  if s = "butanes" then 57.8 else if s = "pentanes" then 72 else if s = "hexanes" then 106.8
  else if s = "esters" then 104.7 else if s = "ethers" then 81.5 else 0

/-- Evaluating a pointwise-accumulating fold at one cell: the fold of
`out + g a` over a list, applied at `i`, is the initial value at `i` plus the
sum of the per-element contributions at `i`. -/
theorem foldl_pointwise_add_apply {α : Type} (l : List α) (g : α → Nat → ℚ)
    (init : Nat → ℚ) (i : Nat) :
    (l.foldl (fun out a => fun j => out j + g a j) init) i
      = init i + (l.map (fun a => g a i)).sum := by
  induction l generalizing init with
  | nil => simp
  | cons a t ih =>
      rw [List.foldl_cons, ih]
      simp only [List.map_cons, List.sum_cons]
      ring

/-- C1: for every non-composite model species with molecular weight `mw` and
scale factor `sf`, the transform writes, at every cell, the regridded input
value multiplied by `(6.022e23 * 1e3 / 1e4) / mw * sf`
(Avogadro * kg-to-g / m2-to-cm2 / molecular weight * scale factor). -/
theorem nonComposite_molecule_flux_formula (mw sf : ℚ) (input : EmisField) (i : Nat) :
    renameNonComposite mw sf input i = input i * (6.022e23 * 1e3 / 1e4 / mw * sf) := by
  unfold renameNonComposite unitFactor avogadroNumber kgToG m2ToCm2
  ring

/-- C2: for a first-tier composite species (BIGALK, XYLENES), the output field,
accumulated onto the initially all-zero base, equals pointwise the sum over its
children of `child_field * (child_mw / parent_mw) * (unit_factor / child_mw) * sf`,
with `child_mw` the child's molecular-weight table entry. -/
theorem composite_output_eq_sum_over_children (store : String → EmisField)
    (subMwTable : String → ℚ) (children : List String) (mw sf : ℚ) (i : Nat) :
    compositeField store subMwTable children mw sf i
      = (children.map (fun c =>
          store c i * (subMwTable c / mw) * (unitFactor / subMwTable c) * sf)).sum := by
  unfold compositeField
  exact (foldl_pointwise_add_apply children _ _ i).trans (by simp)

/-- C3: the second-tier composite IVOC reads every child contribution from the
child's previously written renamed output file — its result does not depend on
the regridded store at all — and accumulates `child_field * (child_mw / parent_mw) * sf`
only, with no unit-conversion factor. -/
theorem ivoc_reads_renamed_outputs_no_unit_factor
    (regriddedA regriddedB renamedStore : String → EmisField) (subMwTable : String → ℚ)
    (children : List String) (mw sf : ℚ) :
    ivocField regriddedA renamedStore subMwTable children mw sf
        = ivocField regriddedB renamedStore subMwTable children mw sf
    ∧ ∀ i, ivocField regriddedA renamedStore subMwTable children mw sf i
        = (children.map (fun c => renamedStore c i * (subMwTable c / mw) * sf)).sum := by
  constructor
  · rfl
  · intro i
    unfold ivocField
    exact (foldl_pointwise_add_apply children _ _ i).trans (by simp)

/-- C10: in the first-tier composite accumulation the child molecular weight
cancels: provided every child's table entry is nonzero, the output is
`(unit_factor / parent_mw) * sf` times the plain sum of the child fields, so it
is independent of the child molecular-weight table (any two nonzero tables give
the same output). -/
theorem composite_child_mw_cancels (store : String → EmisField) (children : List String)
    (mwA mwB : String → ℚ) (mw sf : ℚ)
    (hA : ∀ c ∈ children, mwA c ≠ 0) (hB : ∀ c ∈ children, mwB c ≠ 0) (i : Nat) :
    compositeField store mwA children mw sf i
        = unitFactor / mw * sf * (children.map (fun c => store c i)).sum
    ∧ compositeField store mwA children mw sf i
        = compositeField store mwB children mw sf i := by
  have hsum : ∀ (tbl : String → ℚ) (l : List String), (∀ c ∈ l, tbl c ≠ 0) →
      (l.map (fun c => store c i * (tbl c / mw) * (unitFactor / tbl c) * sf)).sum
        = unitFactor / mw * sf * (l.map (fun c => store c i)).sum := by
    intro tbl l
    induction l with
    | nil => intro _; simp
    | cons a t ih =>
        intro htbl
        have ha : tbl a ≠ 0 := htbl a (List.mem_cons_self a t)
        have ht := ih (fun c hc => htbl c (List.mem_cons_of_mem a hc))
        simp only [List.map_cons, List.sum_cons, ht]
        have hinner : tbl a / mw * (unitFactor / tbl a) = unitFactor / mw := by
          rw [div_mul_div_comm, mul_comm mw (tbl a), mul_div_mul_left unitFactor mw ha]
        calc store a i * (tbl a / mw) * (unitFactor / tbl a) * sf
              + unitFactor / mw * sf * (t.map (fun c => store c i)).sum
            = store a i * (tbl a / mw * (unitFactor / tbl a)) * sf
              + unitFactor / mw * sf * (t.map (fun c => store c i)).sum := by ring
          _ = store a i * (unitFactor / mw) * sf
              + unitFactor / mw * sf * (t.map (fun c => store c i)).sum := by rw [hinner]
          _ = unitFactor / mw * sf
              * (store a i + (t.map (fun c => store c i)).sum) := by ring
  have key : ∀ (tbl : String → ℚ), (∀ c ∈ children, tbl c ≠ 0) →
      compositeField store tbl children mw sf i
        = unitFactor / mw * sf * (children.map (fun c => store c i)).sum := by
    intro tbl htbl
    unfold compositeField
    exact (foldl_pointwise_add_apply children _ _ i).trans
      (by simpa using hsum tbl children htbl)
  exact ⟨key mwA hA, (key mwA hA).trans (key mwB hB).symm⟩

/-- Witness for C10 at a concrete input: the uniform unit field over the BIGALK
children; the `fv.py` table and the (different) `rename.py` table yield the
same composite output. -/
theorem composite_child_mw_cancels_witness :
    compositeField (fun _ _ => 1) bigalkSubMwFV bigalkChildren 72 1 0
      = compositeField (fun _ _ => 1) bigalkSubMwRename bigalkChildren 72 1 0 :=
  (composite_child_mw_cancels (fun _ _ => 1) bigalkChildren bigalkSubMwFV bigalkSubMwRename 72 1
    (by intro c hc; fin_cases hc <;> simp [bigalkSubMwFV] <;> norm_num)
    (by intro c hc; fin_cases hc <;> simp [bigalkSubMwRename] <;> norm_num) 0).2

/-- The CEDS energy/industry sector group for SO2
(`ene_ind = ['ene', 'ind']` in `fv.py` and `rename.py`). -/
def eneIndCEDS : List String := ["ene", "ind"]

/-- The SO2 vertical ("so4_a1 anthro-ene-vertical") layer buffer of
`FV.rename` / `Rename.rename`.  The loop body is, per sector `s` of `ene_ind`:
`layer_values = np.zeros_like(ds_so2[var_name].values)` followed by
`layer_values += ds_so2[var_name].values * 0.025 * (unit_factor / mw) / 2e4`;
the buffer is reset to zeros at the start of every iteration, so the
accumulator argument of the fold is unused, exactly as in the source. -/
def so2VerticalLayerValues (store : String → EmisField) (eneInd : List String)
    (mw : ℚ) : EmisField :=
  eneInd.foldl
    (fun _layerValues s =>
      let zeroed : EmisField := fun _ => 0
      fun i => zeroed i + store s i * 0.025 * (unitFactor / mw) / 2e4)
    (fun _ => 0)

/-- The `emiss_ene_ind` variable of the vertical SO2 output file, indexed by
(altitude layer, flattened cell): `new_var4[:, :, :, :] = 0.0` initializes every
layer to zero, then `new_var4[:, 3:7, :, :] = layer_values[:, np.newaxis, :, :]`
overwrites layers 3..6 with the layer buffer. -/
def so2VerticalField (store : String → EmisField) (eneInd : List String) (mw : ℚ)
    (layer : Nat) : EmisField :=
  if 3 ≤ layer ∧ layer < 7 then so2VerticalLayerValues store eneInd mw else fun _ => 0

/-- A concrete failing input for the vertical SO2 variable: the regridded
`ene` sector field is identically 1 and the `ind` sector field identically 2. -/
def so2FailingStore : String → EmisField :=
  fun s _ => if s = "ene" then 1 else 2

/-- C4: at the failing input (ene ≡ 1, ind ≡ 2, mw = 64), the in-band layers of
`emiss_ene_ind` hold only the LAST sector's scaled field (2 · 0.025 · (unit_factor/64) / 2e4),
not the sum over the energy/industry group ((1+2) · 0.025 · (unit_factor/64) / 2e4),
because `layer_values` is reset to zeros inside the per-sector loop; layers
outside the 3..6 band are zero as claimed. -/
theorem so2_vertical_keeps_only_last_sector :
    so2VerticalField so2FailingStore eneIndCEDS 64 3 0
        = 2 * 0.025 * (unitFactor / 64) / 2e4
    ∧ so2VerticalField so2FailingStore eneIndCEDS 64 3 0
        ≠ (1 + 2) * 0.025 * (unitFactor / 64) / 2e4
    ∧ so2VerticalField so2FailingStore eneIndCEDS 64 2 0 = 0
    ∧ so2VerticalField so2FailingStore eneIndCEDS 64 7 0 = 0 := by
  refine ⟨?_, ?_, ?_, ?_⟩ <;>
    simp [so2VerticalField, so2VerticalLayerValues, so2FailingStore, eneIndCEDS,
      unitFactor, avogadroNumber, kgToG, m2ToCm2] <;>
    norm_num

/-- The time axis written by `FV.rename` / `Rename.rename`:
`periods = 12 * (end_year - start_year + 1)` and
`new_time_values = pd.date_range(start=str(start_year) + '-01-01', periods=periods, freq='MS')`
(CEDS shifts each stamp by 15 days within the same month).  Entry `k` is the
(year, month) pair of the k-th month from January of `start_year`; the
requested start and end months are not consulted. -/
def renameTimeMonths (startYear endYear : Nat) : List (Nat × Nat) :=
  (List.range (12 * (endYear - startYear + 1))).map
    (fun k => (startYear + k / 12, k % 12 + 1))

/-- The number of months in an inclusive monthly window, as the claims state it. -/
def windowMonthCount (startYear startMonth endYear endMonth : ℤ) : ℤ :=
  (endYear - startYear) * 12 + (endMonth - startMonth) + 1

/-- Counterexample to C5: for the requested window (2010-06, 2011-05) — 12
months, starting at 2010-06 — the rename stage writes 24 monthly entries
starting at 2010-01, so the time/date coordinates neither have one entry per
window month nor begin at the window's start month. -/
theorem rename_time_axis_ignores_window_months :
    ((renameTimeMonths 2010 2011).length : ℤ) = 24
    ∧ windowMonthCount 2010 6 2011 5 = 12
    ∧ ((renameTimeMonths 2010 2011).length : ℤ) ≠ windowMonthCount 2010 6 2011 5
    ∧ (renameTimeMonths 2010 2011).head? = some (2010, 1)
    ∧ (renameTimeMonths 2010 2011).head? ≠ some (2010, 6) := by
  refine ⟨?_, ?_, ?_, ?_, ?_⟩ <;> decide

/-- C5 amended: the renamed files' time/date coordinates contain exactly one
monthly entry for each month from January of `start_year` through December of
`end_year` — `12 * (end_year - start_year + 1)` entries in all — regardless of
the requested start/end months; this coincides with the requested window
exactly when `start_month = 1` and `end_month = 12`. -/
theorem rename_time_axis_full_years (startYear endYear : Nat) (h : startYear ≤ endYear) :
    (renameTimeMonths startYear endYear).length = 12 * (endYear - startYear + 1)
    ∧ (∀ y m : Nat, (y, m) ∈ renameTimeMonths startYear endYear
        ↔ startYear ≤ y ∧ y ≤ endYear ∧ 1 ≤ m ∧ m ≤ 12)
    ∧ (renameTimeMonths startYear endYear).Nodup := by
  refine ⟨by simp [renameTimeMonths], ?_, ?_⟩
  · intro y m
    simp only [renameTimeMonths, List.mem_map, List.mem_range]
    constructor
    · rintro ⟨k, hk, hpair⟩
      simp only [Prod.mk.injEq] at hpair
      obtain ⟨h1, h2⟩ := hpair
      omega
    · rintro ⟨hy1, hy2, hm1, hm2⟩
      refine ⟨(y - startYear) * 12 + (m - 1), by omega, ?_⟩
      simp only [Prod.mk.injEq]
      omega
  · refine List.Nodup.map ?_ (List.nodup_range _)
    intro a b hab
    simp only [Prod.mk.injEq] at hab
    omega

/-- Witness for the amended C5 at (start_year, end_year) = (2010, 2011). -/
theorem rename_time_axis_full_years_witness :
    (renameTimeMonths 2010 2011).length = 12 * (2011 - 2010 + 1)
    ∧ ((2010, 1) ∈ renameTimeMonths 2010 2011 ↔ 2010 ≤ 2010 ∧ 2010 ≤ 2011 ∧ 1 ≤ 1 ∧ 1 ≤ 12)
    ∧ (renameTimeMonths 2010 2011).Nodup :=
  ⟨(rename_time_axis_full_years 2010 2011 (by decide)).1,
   (rename_time_axis_full_years 2010 2011 (by decide)).2.1 2010 1,
   (rename_time_axis_full_years 2010 2011 (by decide)).2.2⟩

/-- `period_start_index = (start_year - 2000) * 12 + start_month - 1` from
`FV.sum_up` / `Sum.sum_up`. -/
def periodStartIndex (startYear startMonth : ℤ) : ℤ :=
  (startYear - 2000) * 12 + startMonth - 1

/-- `period_end_index = (end_year - 2000) * 12 + end_month - 1` from
`FV.sum_up` / `Sum.sum_up`. -/
def periodEndIndex (endYear endMonth : ℤ) : ℤ :=
  (endYear - 2000) * 12 + endMonth - 1

/-- Label-based slice `ds.sel(time=slice(time[a], time[b]))` on a strictly
increasing axis with distinct labels: keeps exactly positions `a..b` inclusive. -/
def selInclusive {α : Type} (xs : List α) (a b : Nat) : List α :=
  (xs.drop a).take (b + 1 - a)

/-- The time selection performed by `sum_up` on the epoch-anchored monthly axis
(year 2000 = index 0, 12 indices per year). -/
def selectPeriod {α : Type} (xs : List α) (startYear startMonth endYear endMonth : ℤ) :
    List α :=
  selInclusive xs (periodStartIndex startYear startMonth).toNat
    (periodEndIndex endYear endMonth).toNat

/-- C6: `sum_up` slices the epoch-anchored monthly axis from index
`(start_year - 2000)*12 + start_month - 1` to index
`(end_year - 2000)*12 + end_month - 1` inclusive, so the aggregated field has
exactly `(end_year - start_year)*12 + (end_month - start_month) + 1` monthly
timesteps (for any window starting at or after the 2000 epoch, ending no
earlier than it starts, within the axis). -/
theorem sum_up_window_length {α : Type} (xs : List α)
    (startYear startMonth endYear endMonth : ℤ)
    (h1 : 2000 ≤ startYear) (h2 : 1 ≤ startMonth)
    (h3 : periodStartIndex startYear startMonth ≤ periodEndIndex endYear endMonth)
    (h4 : (periodEndIndex endYear endMonth).toNat < xs.length) :
    ((selectPeriod xs startYear startMonth endYear endMonth).length : ℤ)
      = (endYear - startYear) * 12 + (endMonth - startMonth) + 1 := by
  unfold selectPeriod selInclusive periodStartIndex periodEndIndex at *
  rw [List.length_take, List.length_drop]
  omega

set_option maxRecDepth 4000 in
/-- Witness for C6: on a 240-month axis (2000-01 .. 2019-12), the windows
(2010-01, 2010-12) and (2010-06, 2011-05) both yield exactly 12 timesteps. -/
theorem sum_up_window_length_witness :
    ((selectPeriod (List.range 240) (2010 : ℤ) 1 2010 12).length : ℤ) = 12
    ∧ ((selectPeriod (List.range 240) (2010 : ℤ) 6 2011 5).length : ℤ) = 12 :=
  ⟨(sum_up_window_length (List.range 240) 2010 1 2010 12 (by decide) (by decide)
      (by decide) (by decide)).trans (by norm_num),
   (sum_up_window_length (List.range 240) 2010 6 2011 5 (by decide) (by decide)
      (by decide) (by decide)).trans (by norm_num)⟩

/-- `np.arange(start, stop, step)` over exact rationals: values
`start + i * step` for `i < ceil((stop - start) / step)`. -/
def arange (start stop step : ℚ) : List ℚ :=
  (List.range (Int.toNat (Int.ceil ((stop - start) / step)))).map
    (fun i : ℕ => start + (i : ℚ) * step)

/-- The longitude roll `ds.roll(lon=nlon, roll_coords=True)` of
`apply_regridder`: an `np.roll`-style cyclic right shift of the coordinate by
`nlon` positions. -/
def rollLon (lon : List ℚ) (nlon : Nat) : List ℚ :=
  lon.rotate (lon.length - nlon % lon.length)

/-- The negative-longitude remap
`lon = xr.where(lon < 0, lon + 360, lon)` of `apply_regridder`. -/
def remapNegativeLon (lon : List ℚ) : List ℚ :=
  lon.map (fun x => if x < 0 then x + 360 else x)

/-- The longitude coordinate after the regrid preprocessing of
`FV.apply_regridder` / `Regrid.apply_regridder`: the cyclic roll, the plus-360
remap of negative values, and then
`assign_coords(lon = self._original_lon, lat = self._original_lat)` with
`original_lon = np.arange(0, 360, grid_spacing)`, which replaces the
rolled/remapped labels with the canonical source grid. -/
def processedLon (lon : List ℚ) (nlon : Nat) (gridSpacing : ℚ) : List ℚ :=
  let rolled := rollLon lon nlon
  let remapped := remapNegativeLon rolled
  let _ := remapped
  arange 0 360 gridSpacing

/-- C7: after the cyclic roll, the plus-360 remap and the coordinate
reassignment, the longitude coordinate equals the canonical source-grid
longitudes `arange(0, 360, grid_spacing)`; every value lies in [0, 360) and the
sequence is strictly increasing (for any positive grid spacing). -/
theorem processedLon_canonical (lon : List ℚ) (nlon : Nat) (gridSpacing : ℚ)
    (h : 0 < gridSpacing) :
    processedLon lon nlon gridSpacing = arange 0 360 gridSpacing
    ∧ (∀ x ∈ processedLon lon nlon gridSpacing, 0 ≤ x ∧ x < 360)
    ∧ List.Pairwise (· < ·) (processedLon lon nlon gridSpacing) := by
  have harange : ∀ x ∈ arange 0 360 gridSpacing, 0 ≤ x ∧ x < 360 := by
    intro x hx
    unfold arange at hx
    obtain ⟨i, hi, rfl⟩ := List.mem_map.mp hx
    rw [List.mem_range] at hi
    constructor
    · positivity
    · have hiZ : (i : ℤ) < Int.ceil ((360 - (0 : ℚ)) / gridSpacing) := by
        obtain ⟨N, hN⟩ : ∃ N, Int.ceil ((360 - (0 : ℚ)) / gridSpacing) = N := ⟨_, rfl⟩
        rw [hN] at hi ⊢
        omega
      have hle : ((i : ℤ) : ℚ) + 1 ≤ (Int.ceil ((360 - (0 : ℚ)) / gridSpacing) : ℚ) := by
        exact_mod_cast hiZ
      have hceil := Int.ceil_lt_add_one ((360 - (0 : ℚ)) / gridSpacing)
      have hlt : (i : ℚ) < (360 - 0) / gridSpacing := by push_cast at hle ⊢; linarith
      have := (lt_div_iff₀ h).mp hlt
      linarith
  have hpair : List.Pairwise (· < ·) (arange 0 360 gridSpacing) := by
    unfold arange
    refine List.Pairwise.map _ (fun a b hab => ?_) (List.pairwise_lt_range _)
    have hQ : (a : ℚ) < b := by exact_mod_cast hab
    have := mul_lt_mul_of_pos_right hQ h
    linarith
  exact ⟨rfl, harange, hpair⟩

/-- Witness for C7 at the CEDS grid spacing 1/2 degree (the hypothesis
`0 < grid_spacing` discharged at a concrete input). -/
theorem processedLon_canonical_witness :
    processedLon [] 360 (1 / 2) = arange 0 360 (1 / 2)
    ∧ (∀ x ∈ processedLon [] 360 (1 / 2), 0 ≤ x ∧ x < 360)
    ∧ List.Pairwise (· < ·) (processedLon [] 360 (1 / 2)) :=
  processedLon_canonical [] 360 (1 / 2) (by norm_num)

/-- `FV.__init__`: when IVOC is requested it is moved to the end of the
processing order (`self._model_var_list.remove('IVOC')` then
`self._model_var_list.append('IVOC')`); Python's `remove` deletes the first
occurrence, as does `List.erase`. -/
def reorderIVOC (l : List String) : List String :=
  if "IVOC" ∈ l then l.erase "IVOC" ++ ["IVOC"] else l

/-- `Rename.__init__` performs no reordering: `self._var_namelist = var_namelist`
and `rename` iterates it in the caller's order. -/
def renameVarOrder (l : List String) : List String := l

/-- Counterexample to C8: the standalone `Rename` class keeps the caller's
order, so for `var_namelist = ['IVOC', 'BENZENE']` IVOC is processed first —
before its child tracer BENZENE — not after all other requested variables. -/
theorem rename_keeps_ivoc_first :
    "IVOC" ∈ renameVarOrder ["IVOC", "BENZENE"]
    ∧ (renameVarOrder ["IVOC", "BENZENE"]).head? = some "IVOC"
    ∧ (renameVarOrder ["IVOC", "BENZENE"]).getLast? ≠ some "IVOC" := by
  refine ⟨?_, ?_, ?_⟩ <;> decide

/-- C8 amended: in the FV driver, whenever IVOC occurs (once) in the requested
model-variable list, the processing order is a permutation of the request whose
last element is IVOC and which contains IVOC nowhere else, so every other
requested variable — in particular each IVOC child — is transformed strictly
before IVOC; the standalone Rename class keeps the caller's order unchanged. -/
theorem fv_processes_ivoc_last (l : List String) (h : l.count "IVOC" = 1) :
    (reorderIVOC l).getLast? = some "IVOC"
    ∧ "IVOC" ∉ (reorderIVOC l).dropLast
    ∧ List.Perm (reorderIVOC l) l
    ∧ renameVarOrder l = l := by
  have hmem : "IVOC" ∈ l := List.count_pos_iff.mp (by omega)
  unfold reorderIVOC
  rw [if_pos hmem]
  refine ⟨List.getLast?_concat _, ?_, ?_, rfl⟩
  · rw [List.dropLast_concat]
    intro hmem2
    have herase := List.count_erase_self "IVOC" l
    have hpos : 0 < (l.erase "IVOC").count "IVOC" := List.count_pos_iff.mpr hmem2
    omega
  · exact (List.perm_append_singleton _ _).trans (List.perm_cons_erase hmem).symm

/-- Witness for the amended C8 at the concrete request
`['CO', 'IVOC', 'BENZENE']`. -/
theorem fv_processes_ivoc_last_witness :
    (reorderIVOC ["CO", "IVOC", "BENZENE"]).getLast? = some "IVOC"
    ∧ "IVOC" ∉ (reorderIVOC ["CO", "IVOC", "BENZENE"]).dropLast
    ∧ List.Perm (reorderIVOC ["CO", "IVOC", "BENZENE"]) ["CO", "IVOC", "BENZENE"]
    ∧ renameVarOrder ["CO", "IVOC", "BENZENE"] = ["CO", "IVOC", "BENZENE"] :=
  fv_processes_ivoc_last ["CO", "IVOC", "BENZENE"] (by decide)
